import Mathlib

/-!
Shallow embedding of the allocation and order-validation engine of
`auto_buy.py` (repository Fran-cio/autoBinanceBuy), together with proofs of
the specified properties.

Modelling conventions:

* Python `Decimal` amounts and percentages are modelled as exact rationals
  (`ℚ`).  The script's percentages are Python floats combined with
  `Decimal(str(...))`; they are likewise idealised as exact rationals.  The
  28-significant-digit context rounding of `Decimal` division never matters
  at the magnitudes the script handles and is idealised as exact division.
* `Decimal.quantize(q, ROUND_DOWN)` truncates toward zero at a fixed number
  of decimal places; it is modelled by `quantizeDown` below.
* A `Decimal` value additionally carries a representation exponent
  (`Decimal("0.001").as_tuple().exponent = -3`), which
  `adjust_quantity_to_lot_size` inspects.  Step sizes are therefore
  modelled by the pair `Dec` of coefficient and exponent rather than by a
  bare rational.
* Division by zero: `ℚ` division by zero yields `0`, whereas Python's
  `Decimal` division raises.  Where a claim depends on a division actually
  being performed (the price in `validate_order`), the embedding makes the
  zero-divisor case explicit or the theorems assume a positive divisor.
* The Binance network client and the interactive UI are external
  collaborators; they enter the embedding as explicit function-valued
  parameters (`BinanceClient`), and a token selection made through the UI
  is represented by the `selected_tokens` field it is stored into
  (`category.selected_tokens = selected_tokens` in the source).
* A Python exception that escapes a function is modelled by `none` in an
  `Option`-valued result; an exception that the function catches internally
  never surfaces.
-/

/-- Truncation of a rational toward zero, the rounding performed by
`Decimal.quantize(..., rounding=ROUND_DOWN)` at exponent 0. -/
def truncTowardZero (q : ℚ) : ℤ := if 0 ≤ q then ⌊q⌋ else ⌈q⌉

/-- `quantizeDown p q` models `q.quantize(Decimal(10) ** -p, rounding=ROUND_DOWN)`:
truncation toward zero at `p` decimal places. -/
def quantizeDown (p : ℕ) (q : ℚ) : ℚ := truncTowardZero (q * 10 ^ p) / 10 ^ p

/-- A `Decimal` value as the script sees it: a signed coefficient and a
power-of-ten exponent, so that `Decimal("0.001")` is `⟨1, -3⟩`.  The script
reads the exponent via `as_tuple().exponent` when computing a lot-size
precision. -/
structure Dec where
  coef : ℤ
  exp : ℤ
deriving DecidableEq

/-- The rational value of a `Dec`. -/
def Dec.val (d : Dec) : ℚ := (d.coef : ℚ) * (10 : ℚ) ^ d.exp

/-- `BinanceTrader.adjust_quantity_to_lot_size`: if the step is zero the
quantity is returned unchanged; otherwise the quantity is floored to an
integer multiple of the step (`(quantity / step_size).quantize(Decimal("1"),
ROUND_DOWN) * step_size`) and the result is re-truncated toward zero at the
precision `abs(step_size.as_tuple().exponent)`. -/
def adjust_quantity_to_lot_size (quantity : ℚ) (step_size : Dec) : ℚ :=
  if step_size.val = 0 then quantity
  else
    let precision : ℕ := step_size.exp.natAbs
    let adjusted : ℚ := (truncTowardZero (quantity / step_size.val) : ℚ) * step_size.val
    quantizeDown precision adjusted

/-- `TokenSelection` dataclass: a chosen token and its share (0-100) of the
category. -/
structure TokenSelection where
  token : String
  distribution_percentage : ℚ

/-- `CategoryAllocation` dataclass.  `selected_tokens` holds the user's
choices for the category; an empty list means the category was skipped. -/
structure CategoryAllocation where
  name : String
  percentage : ℚ
  options : List String
  selected_tokens : List TokenSelection

/-- `InvestmentStrategy` dataclass: a named ordered list of categories. -/
structure InvestmentStrategy where
  name : String
  categories : List CategoryAllocation

/-- `TradingOrchestrator.calculate_allocations`.  Categories are split into
active (non-empty selection) and skipped ones in list order.  If every
category is skipped the whole amount is mapped to the reference asset
`"USDC"`.  Otherwise, when at least one category is skipped, each active
category's percentage is rescaled by `percentage * 100 /
active_total_percentage`; each selected token then receives
`total_amount * effective_percentage / 100 * distribution_percentage / 100`
truncated down to 2 decimal places.  (ℚ division by zero yields 0; Python
would instead raise if every active percentage were zero.) -/
def calculate_allocations (strategy : InvestmentStrategy) (total_amount : ℚ) :
    List (String × ℚ) :=
  let active := strategy.categories.filter (fun c => !c.selected_tokens.isEmpty)
  let skipped := strategy.categories.filter (fun c => c.selected_tokens.isEmpty)
  if active.isEmpty then
    [("USDC", total_amount)]
  else
    let redistribute_percentages := !skipped.isEmpty
    let active_total_percentage := (active.map (fun c => c.percentage)).sum
    active.flatMap (fun c =>
      let effective_percentage :=
        if redistribute_percentages then c.percentage * 100 / active_total_percentage
        else c.percentage
      let category_amount := total_amount * effective_percentage / 100
      c.selected_tokens.map (fun t =>
        (t.token, quantizeDown 2 (category_amount * t.distribution_percentage / 100))))

/-- `TradingOrchestrator.calculate_combined_allocations`: the total is split
evenly over the strategies, truncated down to 2 decimals, and each
strategy's allocations are computed from that per-strategy amount and
concatenated.  (The source divides by `len(strategies)`; the callers always
pass a non-empty list.) -/
def calculate_combined_allocations (strategies : List InvestmentStrategy)
    (total_amount : ℚ) : List (String × ℚ) :=
  let amount_per_strategy := quantizeDown 2 (total_amount / (strategies.length : ℚ))
  strategies.flatMap (fun s => calculate_allocations s amount_per_strategy)

/-- One step of the consolidation dict: `consolidated[token] += amount` if the
token is present, else `consolidated[token] = amount` appended at the end
(Python dicts preserve insertion order). -/
def upsert : List (String × ℚ) → String → ℚ → List (String × ℚ)
  | [], token, amount => [(token, amount)]
  | (t, a) :: rest, token, amount =>
    if t = token then (t, a + amount) :: rest
    else (t, a) :: upsert rest token amount

/-- `TradingOrchestrator.consolidate_allocations`: merge duplicate tokens by
summation in first-seen order, then stable-sort by descending amount
(`result.sort(key=lambda x: x[1], reverse=True)`, which Python performs
stably). -/
def consolidate_allocations (allocations : List (String × ℚ)) :
    List (String × ℚ) :=
  let consolidated := allocations.foldl (fun acc p => upsert acc p.1 p.2) []
  consolidated.mergeSort (fun a b => decide (b.2 ≤ a.2))

/-- One entry of a symbol's `filters` list, keyed by its `filterType`.
`notionalFilter` is `"NOTIONAL"`, `legacyMinNotionalFilter` the Binance
legacy `"MIN_NOTIONAL"`; both carry an optional `minNotional` field
(`filter_item.get("minNotional", "10")`).  `lotSizeFilter` is `"LOT_SIZE"`
with its three mandatory fields; `otherFilter` stands for any other filter
type, which the script ignores. -/
inductive ExchFilter where
  | notionalFilter (minNotional : Option ℚ)
  | legacyMinNotionalFilter (minNotional : Option ℚ)
  | lotSizeFilter (minQty maxQty : ℚ) (stepSize : Dec)
  | otherFilter

/-- A successfully placed market order, with the fields the script reads. -/
structure Order where
  orderId : ℕ
  executedQty : ℚ
  cummulativeQuoteQty : ℚ
deriving DecidableEq

/-- The external Binance collaborator, as consumed by the engine.
`symbol_info s = none` covers both an unknown symbol and a
`BinanceAPIException` during the lookup (the script catches it and returns
`None`).  `price s = none` models a `BinanceAPIException` in
`get_current_price`, which the script logs and re-raises.
`order_market_buy s q = none` models an exception while placing the order,
which `execute_market_buy` catches.  The symbol-info cache is behaviourally
transparent (the cached value is the first fetched one) and is omitted. -/
structure BinanceClient where
  symbol_info : String → Option (List ExchFilter)
  price : String → Option ℚ
  order_market_buy : String → ℚ → Option Order

/-- The scan of the `filters` list in `BinanceTrader.get_min_notional`:
first `"NOTIONAL"` or `"MIN_NOTIONAL"` entry wins; a missing `minNotional`
field and an exhausted list both give the conservative default `10`. -/
def find_min_notional : List ExchFilter → ℚ
  | [] => 10
  | .notionalFilter m :: _ => m.getD 10
  | .legacyMinNotionalFilter m :: _ => m.getD 10
  | _ :: rest => find_min_notional rest

/-- `BinanceTrader.get_min_notional`. -/
def get_min_notional (client : BinanceClient) (symbol : String) : ℚ :=
  match client.symbol_info symbol with
  | none => 10
  | some filters => find_min_notional filters

/-- The lot-size defaults `(Decimal("0.00001"), Decimal("99999999"),
Decimal("0.00001"))` returned by `get_lot_size_info` when no information is
available. -/
def default_lot_size : ℚ × ℚ × Dec := (1 / 100000, 99999999, ⟨1, -5⟩)

/-- The scan of the `filters` list in `BinanceTrader.get_lot_size_info`:
first `"LOT_SIZE"` entry wins, otherwise the defaults. -/
def find_lot_size : List ExchFilter → ℚ × ℚ × Dec
  | [] => default_lot_size
  | .lotSizeFilter minQty maxQty stepSize :: _ => (minQty, maxQty, stepSize)
  | _ :: rest => find_lot_size rest

/-- `BinanceTrader.get_lot_size_info`. -/
def get_lot_size_info (client : BinanceClient) (symbol : String) : ℚ × ℚ × Dec :=
  match client.symbol_info symbol with
  | none => default_lot_size
  | some filters => find_lot_size filters

/-- The three rejection messages of `validate_order` and the acceptance
message, abstracted from the formatted log strings of the source. -/
inductive ValidationMessage where
  | belowMinOrderValue
  | belowMinQuantity
  | aboveMaxQuantity
  | orderValid
deriving DecidableEq

/-- `BinanceTrader.validate_order`.  The notional check happens before any
network access, so an amount below the minimum is rejected without
consulting the price.  A price-lookup exception (`price = none`) escapes
(`get_current_price` re-raises), modelled by `none`; a zero price would
make the Decimal division raise, also `none`. -/
def validate_order (client : BinanceClient) (symbol : String)
    (usdc_amount : ℚ) : Option (Bool × ValidationMessage × ℚ) :=
  let min_notional := get_min_notional client symbol
  if usdc_amount < min_notional then
    some (false, .belowMinOrderValue, 0)
  else
    match client.price symbol with
    | none => none
    | some current_price =>
      if current_price = 0 then none
      else
        let raw_quantity := usdc_amount / current_price
        let lot := get_lot_size_info client symbol
        let adjusted_quantity := adjust_quantity_to_lot_size raw_quantity lot.2.2
        if adjusted_quantity < lot.1 then
          some (false, .belowMinQuantity, 0)
        else if adjusted_quantity > lot.2.1 then
          some (false, .aboveMaxQuantity, 0)
        else
          some (true, .orderValid, adjusted_quantity)

/-- Round-half-even to an integer, the default `Decimal.quantize` rounding
used for the `quoteOrderQty` argument. -/
def roundHalfEven (q : ℚ) : ℤ :=
  if q - ⌊q⌋ < 1 / 2 then ⌊q⌋
  else if q - ⌊q⌋ > 1 / 2 then ⌊q⌋ + 1
  else if ⌊q⌋ % 2 = 0 then ⌊q⌋ else ⌊q⌋ + 1

/-- `q.quantize(Decimal("0.01"))` with the default half-even rounding. -/
def quantizeHalfEven (p : ℕ) (q : ℚ) : ℚ := roundHalfEven (q * 10 ^ p) / 10 ^ p

/-- `BinanceTrader.execute_market_buy`.  The trading pair is
`token + "USDC"`.  `validate_order` runs outside the `try` block, so a
price-lookup exception escapes (outer `none`).  A rejected validation
returns `None` (modelled `some none`).  An exception from
`order_market_buy` is caught and also returns `None` (`some none`); a
placed order is returned (`some (some order)`). -/
def execute_market_buy (client : BinanceClient) (token : String)
    (usdc_amount : ℚ) : Option (Option Order) :=
  let symbol := token ++ "USDC"
  match validate_order client symbol usdc_amount with
  | none => none
  | some (is_valid, _, _) =>
    if is_valid then
      match client.order_market_buy symbol (quantizeHalfEven 2 usdc_amount) with
      | none => some none
      | some order => some (some order)
    else
      some none

/-- The per-token outcome record stored in the `results` dict of
`execute_orders`. -/
inductive OrderStatus where
  | success (order_id : ℕ) (executed_qty : ℚ) (spent_usdc : ℚ)
  | skipped (amount : ℚ)
  | failed (amount : ℚ)
deriving DecidableEq

/-- `results[token] = value` on an insertion-ordered dict: overwrite in
place if the key exists, else append. -/
def dictInsert : List (String × OrderStatus) → String → OrderStatus →
    List (String × OrderStatus)
  | [], k, v => [(k, v)]
  | (k0, v0) :: rest, k, v =>
    if k0 = k then (k0, v) :: rest
    else (k0, v0) :: dictInsert rest k v

/-- The observable outcome of a run of `execute_orders`: the `results` dict
and, as an execution trace, the tokens for which `execute_market_buy` was
invoked. -/
structure ExecReport where
  results : List (String × OrderStatus)
  buy_calls : List String
deriving DecidableEq

/-- The loop body of `TradingOrchestrator.execute_orders`.  A token equal to
the base asset `"USDC"` is recorded as skipped without invoking
`execute_market_buy`; otherwise the buy is attempted and recorded as
success or failure.  An exception escaping `execute_market_buy` aborts the
whole loop (`none`): nothing is returned for any allocation. -/
def execute_orders_go (client : BinanceClient) :
    List (String × ℚ) → ExecReport → Option ExecReport
  | [], report => some report
  | (token, amount) :: rest, report =>
    if token = "USDC" then
      execute_orders_go client rest
        ⟨dictInsert report.results token (.skipped amount), report.buy_calls⟩
    else
      match execute_market_buy client token amount with
      | none => none
      | some none =>
        execute_orders_go client rest
          ⟨dictInsert report.results token (.failed amount),
            report.buy_calls ++ [token]⟩
      | some (some order) =>
        execute_orders_go client rest
          ⟨dictInsert report.results token
              (.success order.orderId order.executedQty order.cummulativeQuoteQty),
            report.buy_calls ++ [token]⟩

/-- `TradingOrchestrator.execute_orders`. -/
def execute_orders (client : BinanceClient) (allocations : List (String × ℚ)) :
    Option ExecReport :=
  execute_orders_go client allocations ⟨[], []⟩

/-- The effective category percentage exactly as the specification words it:
unchanged when no category is skipped, and otherwise
`percentage * 100 / (sum of the active categories' percentages)`. -/
def spec_effective_percentage (s : InvestmentStrategy)
    (c : CategoryAllocation) : ℚ :=
  if (s.categories.filter (fun c => c.selected_tokens.isEmpty)).isEmpty then
    c.percentage
  else
    c.percentage * 100 /
      ((s.categories.filter (fun c => !c.selected_tokens.isEmpty)).map
        (fun c => c.percentage)).sum

/-- The allocation list exactly as the specification words it: every active
category contributes, for each of its token selections,
`total_amount * effective_percentage / 100 * distribution_percentage / 100`
truncated down to 2 decimals. -/
def spec_allocations (s : InvestmentStrategy) (total_amount : ℚ) :
    List (String × ℚ) :=
  (s.categories.filter (fun c => !c.selected_tokens.isEmpty)).flatMap (fun c =>
    c.selected_tokens.map (fun t =>
      (t.token,
        quantizeDown 2 (total_amount * spec_effective_percentage s c / 100 *
          t.distribution_percentage / 100))))

/-- The active categories of a strategy, in list order. -/
def activeCats (s : InvestmentStrategy) : List CategoryAllocation :=
  s.categories.filter (fun c => !c.selected_tokens.isEmpty)

/-- The skipped categories of a strategy, in list order. -/
def skippedCats (s : InvestmentStrategy) : List CategoryAllocation :=
  s.categories.filter (fun c => c.selected_tokens.isEmpty)

/-- The effective percentage used by `calculate_allocations` for an active
category. -/
def effPct (s : InvestmentStrategy) (c : CategoryAllocation) : ℚ :=
  if !(skippedCats s).isEmpty then
    c.percentage * 100 / ((activeCats s).map (fun c => c.percentage)).sum
  else c.percentage

/-- The exact (pre-truncation) per-token amounts, flattened in output
order. -/
def exactAmounts (s : InvestmentStrategy) (total_amount : ℚ) : List ℚ :=
  (activeCats s).flatMap (fun c =>
    c.selected_tokens.map (fun t =>
      total_amount * effPct s c / 100 * t.distribution_percentage / 100))

/-- The §3 data-model invariant of a category: a nonnegative percentage,
nonnegative distribution percentages, and — for a non-empty selection —
distribution percentages summing to exactly 100. -/
def CategoryInvariant (c : CategoryAllocation) : Prop :=
  0 ≤ c.percentage ∧
  (∀ t ∈ c.selected_tokens, 0 ≤ t.distribution_percentage) ∧
  (c.selected_tokens ≠ [] →
    (c.selected_tokens.map (fun t => t.distribution_percentage)).sum = 100)

/-- The §3 data-model invariant of a strategy: every category well formed
and category percentages summing to 100. -/
def StrategyInvariant (s : InvestmentStrategy) : Prop :=
  (∀ c ∈ s.categories, CategoryInvariant c) ∧
  (s.categories.map (fun c => c.percentage)).sum = 100

/-- A well-formed strategy used as concrete input: two single-token
categories. -/
def strategyTwoCats : InvestmentStrategy :=
  ⟨"W", [⟨"Bitcoin", 60, ["BTC"], [⟨"BTC", 100⟩]⟩,
         ⟨"Ethereum", 40, ["ETH"], [⟨"ETH", 100⟩]⟩]⟩

/-- The strategy refuting the original C1 bound: one category whose amount
is split 50/50 over two tokens. -/
def shortfallStrategy : InvestmentStrategy :=
  ⟨"S", [⟨"Crypto", 100, ["A", "B"], [⟨"A", 50⟩, ⟨"B", 50⟩]⟩]⟩

/-- A second well-formed strategy used as concrete input. -/
def strategyOneCat : InvestmentStrategy :=
  ⟨"C", [⟨"Bitcoin", 100, ["BTC"], [⟨"BTC", 100⟩]⟩]⟩

/-- Total amount carried by a given token in an allocation list. -/
def keyTotal (t : String) (l : List (String × ℚ)) : ℚ :=
  (l.map (fun p => if p.1 = t then p.2 else 0)).sum

/-- A client whose every symbol carries a degenerate lot filter, a price of
2, and successful order placement. -/
def demoClient : BinanceClient :=
  ⟨fun _ => some [.lotSizeFilter 0 1000000 ⟨0, 0⟩], fun _ => some 2,
    fun _ _ => some ⟨1, 10, 20⟩⟩

/-- A client whose order placement fails for the pair `AAAUSDC` but succeeds
elsewhere. -/
def flakyClient : BinanceClient :=
  ⟨fun _ => some [.lotSizeFilter 0 1000000 ⟨0, 0⟩], fun _ => some 2,
    fun s q => if s = "AAAUSDC" then none else some ⟨1, q, q⟩⟩

/-! ### Arithmetic facts about truncation -/

lemma truncTowardZero_of_nonneg {q : ℚ} (h : 0 ≤ q) : truncTowardZero q = ⌊q⌋ := by
  simp [truncTowardZero, h]

lemma truncTowardZero_intCast (n : ℤ) : truncTowardZero (n : ℚ) = n := by
  unfold truncTowardZero
  split <;> simp

lemma quantizeDown_eq_floor {q : ℚ} (p : ℕ) (h : 0 ≤ q) :
    quantizeDown p q = (⌊q * 10 ^ p⌋ : ℚ) / 10 ^ p := by
  unfold quantizeDown
  rw [truncTowardZero_of_nonneg (by positivity)]

lemma quantizeDown_le {q : ℚ} (p : ℕ) (h : 0 ≤ q) : quantizeDown p q ≤ q := by
  rw [quantizeDown_eq_floor p h, div_le_iff₀ (by positivity)]
  exact Int.floor_le _

lemma quantizeDown_nonneg {q : ℚ} (p : ℕ) (h : 0 ≤ q) : 0 ≤ quantizeDown p q := by
  rw [quantizeDown_eq_floor p h]
  have : (0 : ℤ) ≤ ⌊q * 10 ^ p⌋ := Int.floor_nonneg.mpr (by positivity)
  positivity

lemma lt_quantizeDown_add {q : ℚ} (p : ℕ) (h : 0 ≤ q) :
    q < quantizeDown p q + 1 / 10 ^ p := by
  rw [quantizeDown_eq_floor p h, div_add_div_same, lt_div_iff₀ (by positivity)]
  exact Int.lt_floor_add_one _

/-- Truncating at `p` decimal places is the identity on a rational that is
already an integer multiple of `10 ^ (-p)`. -/
lemma quantizeDown_eq_self {q : ℚ} (p : ℕ) (n : ℤ) (h : q * 10 ^ p = (n : ℚ)) :
    quantizeDown p q = q := by
  unfold quantizeDown
  rw [h, truncTowardZero_intCast, ← h, mul_div_assoc, div_self (by positivity), mul_one]

lemma sum_map_quantizeDown_le (p : ℕ) (l : List ℚ) (h : ∀ x ∈ l, 0 ≤ x) :
    (l.map (quantizeDown p)).sum ≤ l.sum := by
  have := List.sum_le_sum (l := l) (f := quantizeDown p) (g := id)
    (fun x hx => quantizeDown_le p (h x hx))
  simpa using this

lemma sum_le_sum_map_quantizeDown_add (p : ℕ) (l : List ℚ) (h : ∀ x ∈ l, 0 ≤ x) :
    l.sum ≤ (l.map (quantizeDown p)).sum + l.length * (1 / 10 ^ p) := by
  induction l with
  | nil => simp
  | cons x xs ih =>
    have hx : x < quantizeDown p x + 1 / 10 ^ p :=
      lt_quantizeDown_add p (h x (by simp))
    have hxs := ih (fun y hy => h y (by simp [hy]))
    simp only [List.sum_cons, List.map_cons, List.length_cons]
    push_cast
    linarith

lemma sum_lt_sum_map_quantizeDown_add (p : ℕ) (l : List ℚ) (hne : l ≠ [])
    (h : ∀ x ∈ l, 0 ≤ x) :
    l.sum < (l.map (quantizeDown p)).sum + l.length * (1 / 10 ^ p) := by
  match l, hne with
  | x :: xs, _ =>
    have hx : x < quantizeDown p x + 1 / 10 ^ p :=
      lt_quantizeDown_add p (h x (by simp))
    have hxs := sum_le_sum_map_quantizeDown_add p xs (fun y hy => h y (by simp [hy]))
    simp only [List.sum_cons, List.map_cons, List.length_cons]
    push_cast
    linarith

/-- `⌊q / s⌋ * s` truncated at the precision implied by the exponent of the
step `s` is unchanged: any integer multiple of the step value is already
representable at that precision, so the final `quantize` of
`adjust_quantity_to_lot_size` never alters the value. -/
lemma quantizeDown_natAbs_mul (s : Dec) (k : ℤ) :
    quantizeDown s.exp.natAbs ((k : ℚ) * s.val) = (k : ℚ) * s.val := by
  rcases le_or_lt 0 s.exp with hpos | hneg
  · obtain ⟨m, hm⟩ : ∃ m : ℕ, s.exp = (m : ℤ) := ⟨s.exp.toNat, (Int.toNat_of_nonneg hpos).symm⟩
    refine quantizeDown_eq_self _ (k * s.coef * 10 ^ m * 10 ^ m) ?_
    rw [Dec.val, hm, zpow_natCast, show ((m : ℤ)).natAbs = m by omega]
    push_cast
    ring
  · obtain ⟨m, hm⟩ : ∃ m : ℕ, s.exp = -(m : ℤ) := ⟨s.exp.natAbs, by omega⟩
    refine quantizeDown_eq_self _ (k * s.coef) ?_
    rw [Dec.val, hm, zpow_neg, zpow_natCast, show ((-(m : ℤ)).natAbs) = m by omega]
    push_cast
    field_simp

/-- **C4.** `adjust_quantity_to_lot_size` returns the quantity unchanged for
a zero step size; for a positive step size it equals
`⌊quantity / step⌋ * step` truncated toward zero at the step's decimal
precision, is an exact integer multiple of the step value, and never
exceeds the input quantity.  `normalize(1.23456, 0.001) = 1.234` and
`normalize(1.0009, 0.001) = 1.000`. -/
theorem adjust_quantity_to_lot_size_spec :
    (∀ (quantity : ℚ) (step : Dec), 0 ≤ quantity →
      (step.val = 0 → adjust_quantity_to_lot_size quantity step = quantity) ∧
      (0 < step.val →
        adjust_quantity_to_lot_size quantity step
            = quantizeDown step.exp.natAbs ((⌊quantity / step.val⌋ : ℚ) * step.val) ∧
        (∃ k : ℤ, adjust_quantity_to_lot_size quantity step = (k : ℚ) * step.val) ∧
        adjust_quantity_to_lot_size quantity step ≤ quantity)) ∧
    adjust_quantity_to_lot_size (123456 / 100000) ⟨1, -3⟩ = 1234 / 1000 ∧
    adjust_quantity_to_lot_size (10009 / 10000) ⟨1, -3⟩ = 1 := by
  refine ⟨?_, ?_, ?_⟩
  · intro q s hq
    constructor
    · intro h0
      simp [adjust_quantity_to_lot_size, h0]
    · intro hpos
      have hne : s.val ≠ 0 := ne_of_gt hpos
      have htr : truncTowardZero (q / s.val) = ⌊q / s.val⌋ :=
        truncTowardZero_of_nonneg (div_nonneg hq hpos.le)
      have hEq : adjust_quantity_to_lot_size q s
          = quantizeDown s.exp.natAbs ((⌊q / s.val⌋ : ℚ) * s.val) := by
        simp [adjust_quantity_to_lot_size, hne, htr]
      refine ⟨hEq, ⟨⌊q / s.val⌋, by rw [hEq, quantizeDown_natAbs_mul]⟩, ?_⟩
      rw [hEq, quantizeDown_natAbs_mul]
      calc (⌊q / s.val⌋ : ℚ) * s.val
          ≤ (q / s.val) * s.val := mul_le_mul_of_nonneg_right (Int.floor_le _) hpos.le
        _ = q := div_mul_cancel₀ q hne
  · norm_num [adjust_quantity_to_lot_size, Dec.val, quantizeDown, truncTowardZero]
  · norm_num [adjust_quantity_to_lot_size, Dec.val, quantizeDown, truncTowardZero]

/-- Witness for C4 at `quantity = 3`, `step = 0.001`. -/
theorem adjust_quantity_to_lot_size_spec_witness :
    adjust_quantity_to_lot_size 3 ⟨1, -3⟩ ≤ 3 :=
  ((adjust_quantity_to_lot_size_spec.1 3 ⟨1, -3⟩ (by norm_num)).2
    (by norm_num [Dec.val])).2.2

/-- **C2.** If every category of the strategy has an empty token selection,
`calculate_allocations` returns exactly `[("USDC", total_amount)]`. -/
theorem calculate_allocations_all_skipped (strategy : InvestmentStrategy)
    (total_amount : ℚ) (h : ∀ c ∈ strategy.categories, c.selected_tokens = []) :
    calculate_allocations strategy total_amount = [("USDC", total_amount)] := by
  unfold calculate_allocations
  rw [if_pos]
  rw [List.isEmpty_eq_true, List.filter_eq_nil_iff]
  intro c hc
  simp [h c hc]

/-- Witness for C2: a one-category strategy with no selections. -/
theorem calculate_allocations_all_skipped_witness :
    calculate_allocations ⟨"S", [⟨"Bitcoin", 100, ["BTC"], []⟩]⟩ 5 = [("USDC", 5)] :=
  calculate_allocations_all_skipped _ 5 (by simp)

/-- **C3.** `validate_order` rejects an amount below the symbol's minimum
notional before any price lookup, so the rejection holds for every client
and in particular every price behaviour; otherwise, given the current
price, the quantity `usdc_amount / price` is normalized with the lot-size
step and the order is rejected exactly when the adjusted quantity is below
`min_qty` or above `max_qty`, and otherwise accepted with that adjusted
quantity. -/
theorem validate_order_spec :
    ∀ (client : BinanceClient) (symbol : String) (usdc_amount : ℚ),
      (usdc_amount < get_min_notional client symbol →
        validate_order client symbol usdc_amount
          = some (false, .belowMinOrderValue, 0)) ∧
      (∀ current_price, client.price symbol = some current_price →
        0 < current_price →
        get_min_notional client symbol ≤ usdc_amount →
        validate_order client symbol usdc_amount =
          (let lot := get_lot_size_info client symbol
           let adjusted :=
             adjust_quantity_to_lot_size (usdc_amount / current_price) lot.2.2
           if adjusted < lot.1 then some (false, .belowMinQuantity, 0)
           else if adjusted > lot.2.1 then some (false, .aboveMaxQuantity, 0)
           else some (true, .orderValid, adjusted))) := by
  intro client symbol usdc_amount
  constructor
  · intro h
    simp [validate_order, h]
  · intro p hp hppos hge
    have hnlt : ¬ usdc_amount < get_min_notional client symbol := not_lt.mpr hge
    simp [validate_order, hnlt, hp, ne_of_gt hppos]

/-- Witness for C3: with no symbol information the minimum notional defaults
to 10, so 5 is rejected for every price; an amount of 20 at price 2 with an
explicit degenerate lot filter is accepted with quantity 10. -/
theorem validate_order_spec_witness :
    validate_order ⟨fun _ => none, fun _ => some 2, fun _ _ => none⟩ "BTCUSDC" 5
        = some (false, .belowMinOrderValue, 0) ∧
    validate_order
        ⟨fun _ => some [.lotSizeFilter 0 1000000 ⟨0, 0⟩], fun _ => some 2,
          fun _ _ => none⟩ "BTCUSDC" 20
        = some (true, .orderValid, 10) := by
  constructor
  · exact (validate_order_spec _ "BTCUSDC" 5).1
      (by norm_num [get_min_notional])
  · rw [(validate_order_spec _ "BTCUSDC" 20).2 2 rfl (by norm_num)
      (by norm_num [get_min_notional, find_min_notional])]
    norm_num [get_lot_size_info, find_lot_size, adjust_quantity_to_lot_size, Dec.val]

lemma find_min_notional_of_no_match (fs : List ExchFilter)
    (h : ∀ f ∈ fs, (∀ m, f ≠ .notionalFilter m) ∧
      (∀ m, f ≠ .legacyMinNotionalFilter m)) :
    find_min_notional fs = 10 := by
  induction fs with
  | nil => rfl
  | cons f rest ih =>
    cases f with
    | notionalFilter m => exact absurd rfl ((h _ (by simp)).1 m)
    | legacyMinNotionalFilter m => exact absurd rfl ((h _ (by simp)).2 m)
    | lotSizeFilter a b c =>
      simpa [find_min_notional] using ih (fun f hf => h f (by simp [hf]))
    | otherFilter =>
      simpa [find_min_notional] using ih (fun f hf => h f (by simp [hf]))

lemma find_lot_size_of_no_match (fs : List ExchFilter)
    (h : ∀ f ∈ fs, ∀ a b c, f ≠ .lotSizeFilter a b c) :
    find_lot_size fs = default_lot_size := by
  induction fs with
  | nil => rfl
  | cons f rest ih =>
    cases f with
    | lotSizeFilter a b c => exact absurd rfl (h _ (by simp) a b c)
    | notionalFilter m =>
      simpa [find_lot_size] using ih (fun f hf => h f (by simp [hf]))
    | legacyMinNotionalFilter m =>
      simpa [find_lot_size] using ih (fun f hf => h f (by simp [hf]))
    | otherFilter =>
      simpa [find_lot_size] using ih (fun f hf => h f (by simp [hf]))

/-- **C10.** When `get_symbol_info` yields nothing, or the filters list has
no `NOTIONAL`/`MIN_NOTIONAL` (resp. `LOT_SIZE`) entry, or the `minNotional`
field is absent, filter retrieval still succeeds with the conservative
defaults: a minimum notional of 10 and lot-size parameters
`(0.00001, 99999999, 0.00001)`. -/
theorem filter_defaults_spec :
    (∀ (client : BinanceClient) (symbol : String),
      client.symbol_info symbol = none →
        get_min_notional client symbol = 10 ∧
        get_lot_size_info client symbol = default_lot_size) ∧
    (∀ (client : BinanceClient) (symbol : String) (fs : List ExchFilter),
      client.symbol_info symbol = some fs →
        ((∀ f ∈ fs, (∀ m, f ≠ .notionalFilter m) ∧
            (∀ m, f ≠ .legacyMinNotionalFilter m)) →
          get_min_notional client symbol = 10) ∧
        ((∀ f ∈ fs, ∀ a b c, f ≠ .lotSizeFilter a b c) →
          get_lot_size_info client symbol = default_lot_size)) ∧
    find_min_notional [.notionalFilter none] = 10 ∧
    default_lot_size = (1 / 100000, 99999999, (⟨1, -5⟩ : Dec)) := by
  refine ⟨?_, ?_, rfl, rfl⟩
  · intro client symbol h
    constructor
    · simp [get_min_notional, h]
    · simp [get_lot_size_info, h]
  · intro client symbol fs h
    constructor
    · intro hno
      simp [get_min_notional, h, find_min_notional_of_no_match fs hno]
    · intro hno
      simp [get_lot_size_info, h, find_lot_size_of_no_match fs hno]

/-- Witness for C10: a client with no symbol information at all. -/
theorem filter_defaults_spec_witness :
    get_min_notional ⟨fun _ => none, fun _ => none, fun _ _ => none⟩ "XUSDC" = 10 ∧
    get_lot_size_info ⟨fun _ => none, fun _ => none, fun _ _ => none⟩ "XUSDC"
      = default_lot_size :=
  filter_defaults_spec.1 _ "XUSDC" rfl

/-- **C5.** Whenever at least one category is active, `calculate_allocations`
computes exactly the specification's formula: rescaled effective
percentages when some category is skipped, raw percentages when none is. -/
theorem calculate_allocations_effective_percentage (s : InvestmentStrategy)
    (total_amount : ℚ)
    (h : s.categories.filter (fun c => !c.selected_tokens.isEmpty) ≠ []) :
    calculate_allocations s total_amount = spec_allocations s total_amount := by
  unfold calculate_allocations spec_allocations
  rw [if_neg (by simpa [List.isEmpty_eq_true] using h)]
  rw [List.flatMap_def, List.flatMap_def]
  refine congrArg List.flatten ?_
  apply List.map_congr_left
  intro c hc
  unfold spec_effective_percentage
  cases h2 : (s.categories.filter (fun c => c.selected_tokens.isEmpty)).isEmpty <;>
    simp [h2]

/-- Witness for C5: one active and one skipped category. -/
theorem calculate_allocations_effective_percentage_witness :
    calculate_allocations
        ⟨"S", [⟨"Bitcoin", 60, ["BTC"], [⟨"BTC", 100⟩]⟩,
               ⟨"Ethereum", 40, ["ETH"], []⟩]⟩ 10
      = spec_allocations
        ⟨"S", [⟨"Bitcoin", 60, ["BTC"], [⟨"BTC", 100⟩]⟩,
               ⟨"Ethereum", 40, ["ETH"], []⟩]⟩ 10 :=
  calculate_allocations_effective_percentage _ 10 (by simp)

/-! ### The allocation engine: exact amounts and truncation losses -/

/-- With at least one active category, `calculate_allocations` is the
flattened per-token truncation of the exact amounts. -/
lemma calculate_allocations_eq_active (s : InvestmentStrategy) (total_amount : ℚ)
    (hA : activeCats s ≠ []) :
    calculate_allocations s total_amount
      = (activeCats s).flatMap (fun c =>
          c.selected_tokens.map (fun t =>
            (t.token,
              quantizeDown 2 (total_amount * effPct s c / 100 *
                t.distribution_percentage / 100)))) := by
  unfold calculate_allocations
  rw [if_neg (by simpa [List.isEmpty_eq_true, activeCats] using hA)]
  rfl

lemma amounts_eq_map_quantize (s : InvestmentStrategy) (total_amount : ℚ)
    (hA : activeCats s ≠ []) :
    (calculate_allocations s total_amount).map Prod.snd
      = (exactAmounts s total_amount).map (quantizeDown 2) := by
  rw [calculate_allocations_eq_active s total_amount hA]
  unfold exactAmounts
  rw [List.map_flatMap, List.map_flatMap]
  refine congrArg List.flatten (List.map_congr_left fun c _ => ?_)
  simp [List.map_map, Function.comp]

lemma effPct_nonneg (s : InvestmentStrategy) (c : CategoryAllocation)
    (hc : c ∈ s.categories) (hp : ∀ c' ∈ s.categories, 0 ≤ c'.percentage) :
    0 ≤ effPct s c := by
  unfold effPct
  split
  · refine div_nonneg (mul_nonneg (hp c hc) (by norm_num)) ?_
    refine List.sum_nonneg fun x hx => ?_
    obtain ⟨c', hc', rfl⟩ := List.mem_map.mp hx
    exact hp c' (List.mem_filter.mp hc').1
  · exact hp c hc

lemma exactAmounts_nonneg (s : InvestmentStrategy) (total_amount : ℚ)
    (htotal : 0 ≤ total_amount) (hp : ∀ c' ∈ s.categories, 0 ≤ c'.percentage)
    (hd : ∀ c ∈ s.categories, ∀ t ∈ c.selected_tokens,
      0 ≤ t.distribution_percentage) :
    ∀ x ∈ exactAmounts s total_amount, 0 ≤ x := by
  intro x hx
  obtain ⟨c, hc, hx⟩ := List.mem_flatMap.mp hx
  obtain ⟨t, ht, rfl⟩ := List.mem_map.mp hx
  have hcmem : c ∈ s.categories := (List.mem_filter.mp hc).1
  have h1 : 0 ≤ total_amount * effPct s c / 100 :=
    div_nonneg (mul_nonneg htotal (effPct_nonneg s c hcmem hp)) (by norm_num)
  exact div_nonneg (mul_nonneg h1 (hd c hcmem t ht)) (by norm_num)

/-- The exact amounts of each active category sum to
`total_amount * effective_percentage / 100` when its distribution
percentages sum to 100; flattening gives
`total_amount / 100 * (sum of effective percentages)`. -/
lemma exactAmounts_sum (s : InvestmentStrategy) (total_amount : ℚ)
    (hd : ∀ c ∈ s.categories, c.selected_tokens ≠ [] →
      (c.selected_tokens.map (fun t => t.distribution_percentage)).sum = 100) :
    (exactAmounts s total_amount).sum
      = total_amount / 100 * ((activeCats s).map (effPct s)).sum := by
  unfold exactAmounts
  rw [List.flatMap_def, List.sum_flatten, List.map_map]
  have hcong : ∀ c ∈ activeCats s,
      (List.sum ∘ fun c => c.selected_tokens.map (fun t =>
        total_amount * effPct s c / 100 * t.distribution_percentage / 100)) c
        = total_amount / 100 * effPct s c := by
    intro c hc
    have hmem := List.mem_filter.mp hc
    have hne : c.selected_tokens ≠ [] := by
      simpa [List.isEmpty_eq_true] using hmem.2
    have h100 := hd c hmem.1 hne
    have hfun : c.selected_tokens.map (fun t =>
        total_amount * effPct s c / 100 * t.distribution_percentage / 100)
        = c.selected_tokens.map (fun t =>
            (total_amount * effPct s c / 100 / 100) * t.distribution_percentage) :=
      List.map_congr_left fun t _ => by ring
    simp only [Function.comp]
    rw [hfun, List.sum_map_mul_left, h100]
    ring
  rw [List.map_congr_left hcong, List.sum_map_mul_left]

/-- When no category is skipped, the active categories are all of them. -/
lemma activeCats_eq_self (s : InvestmentStrategy)
    (hall : ∀ c ∈ s.categories, c.selected_tokens ≠ []) :
    activeCats s = s.categories := by
  unfold activeCats
  refine List.filter_eq_self.mpr fun c hc => ?_
  simpa [List.isEmpty_eq_true] using hall c hc

lemma skippedCats_eq_nil (s : InvestmentStrategy)
    (hall : ∀ c ∈ s.categories, c.selected_tokens ≠ []) :
    skippedCats s = [] := by
  unfold skippedCats
  refine List.filter_eq_nil_iff.mpr fun c hc => ?_
  simpa [List.isEmpty_eq_true] using hall c hc

/-- When no category is skipped the effective percentages sum to the raw
percentage total. -/
lemma effPct_sum_of_all_active (s : InvestmentStrategy)
    (hall : ∀ c ∈ s.categories, c.selected_tokens ≠ []) :
    ((activeCats s).map (effPct s)).sum
      = (s.categories.map (fun c => c.percentage)).sum := by
  have hskip := skippedCats_eq_nil s hall
  have hcong : ∀ c ∈ activeCats s, effPct s c = c.percentage := fun c _ => by
    unfold effPct
    rw [if_neg (by simp [hskip])]
  rw [List.map_congr_left hcong, activeCats_eq_self s hall]

/-- In every case the effective percentages of the active categories sum to
at most 100 (to exactly 100 in the redistribution case with a nonzero
active total, and to the raw total otherwise). -/
lemma effPct_sum_le (s : InvestmentStrategy)
    (hptotal : (s.categories.map (fun c => c.percentage)).sum = 100) :
    ((activeCats s).map (effPct s)).sum ≤ 100 := by
  by_cases hred : (skippedCats s).isEmpty
  · have hall : ∀ c ∈ s.categories, c.selected_tokens ≠ [] := by
      intro c hc
      have := List.filter_eq_nil_iff.mp (List.isEmpty_eq_true.mp hred) c hc
      simpa [List.isEmpty_eq_true] using this
    rw [effPct_sum_of_all_active s hall, hptotal]
  · have hcong : ∀ c ∈ activeCats s, effPct s c
        = (100 / ((activeCats s).map (fun c => c.percentage)).sum) * c.percentage := by
      intro c _
      unfold effPct
      rw [if_pos (by simp [hred])]
      ring
    rw [List.map_congr_left hcong, List.sum_map_mul_left]
    by_cases hS : ((activeCats s).map (fun c => c.percentage)).sum = 0
    · rw [hS]
      norm_num
    · rw [div_mul_cancel₀ 100 hS]

/-- The allocated amounts of a well-formed strategy never exceed the total,
whatever subset of categories is skipped. -/
lemma sum_calculate_allocations_le (s : InvestmentStrategy) (total_amount : ℚ)
    (htotal : 0 ≤ total_amount) (hinv : StrategyInvariant s) :
    ((calculate_allocations s total_amount).map Prod.snd).sum ≤ total_amount := by
  by_cases hA : activeCats s = []
  · have hcalc : calculate_allocations s total_amount = [("USDC", total_amount)] := by
      unfold calculate_allocations
      rw [if_pos (by simpa [List.isEmpty_eq_true, activeCats] using hA)]
    rw [hcalc]
    simp
  · rw [amounts_eq_map_quantize s total_amount hA]
    have hp : ∀ c' ∈ s.categories, 0 ≤ c'.percentage :=
      fun c hc => (hinv.1 c hc).1
    have hd0 : ∀ c ∈ s.categories, ∀ t ∈ c.selected_tokens,
        0 ≤ t.distribution_percentage := fun c hc => (hinv.1 c hc).2.1
    have hd : ∀ c ∈ s.categories, c.selected_tokens ≠ [] →
        (c.selected_tokens.map (fun t => t.distribution_percentage)).sum = 100 :=
      fun c hc => (hinv.1 c hc).2.2
    have h1 := sum_map_quantizeDown_le 2 _
      (exactAmounts_nonneg s total_amount htotal hp hd0)
    have h2 := exactAmounts_sum s total_amount hd
    have h3 := effPct_sum_le s hinv.2
    have h4 : (exactAmounts s total_amount).sum ≤ total_amount := by
      rw [h2]
      calc total_amount / 100 * ((activeCats s).map (effPct s)).sum
          ≤ total_amount / 100 * 100 :=
            mul_le_mul_of_nonneg_left h3 (div_nonneg htotal (by norm_num))
        _ = total_amount := by ring
    linarith

/-- **C1 (amended).** For a well-formed strategy with at least one category,
all of them active, and a nonnegative total, the allocated amounts sum to
at most the total and the truncation shortfall is strictly below
`0.01 × (total number of token selections)`.  (The per-category bound
`0.01 × categories_count` of the original claim fails as soon as a
category distributes over more than one token; see the counterexample.) -/
theorem calculate_allocations_sum_bounds (s : InvestmentStrategy)
    (total_amount : ℚ) (hne : s.categories ≠ [])
    (hall : ∀ c ∈ s.categories, c.selected_tokens ≠ [])
    (hinv : StrategyInvariant s) (htotal : 0 ≤ total_amount) :
    ((calculate_allocations s total_amount).map Prod.snd).sum ≤ total_amount ∧
    total_amount - ((calculate_allocations s total_amount).map Prod.snd).sum
      < (((s.categories.map (fun c => c.selected_tokens.length)).sum : ℕ) : ℚ)
          * (1 / 100) := by
  have hA : activeCats s ≠ [] := by
    rw [activeCats_eq_self s hall]
    exact hne
  refine ⟨sum_calculate_allocations_le s total_amount htotal hinv, ?_⟩
  have hp : ∀ c' ∈ s.categories, 0 ≤ c'.percentage :=
    fun c hc => (hinv.1 c hc).1
  have hd0 : ∀ c ∈ s.categories, ∀ t ∈ c.selected_tokens,
      0 ≤ t.distribution_percentage := fun c hc => (hinv.1 c hc).2.1
  have hd : ∀ c ∈ s.categories, c.selected_tokens ≠ [] →
      (c.selected_tokens.map (fun t => t.distribution_percentage)).sum = 100 :=
    fun c hc => (hinv.1 c hc).2.2
  have hsum_exact : (exactAmounts s total_amount).sum = total_amount := by
    rw [exactAmounts_sum s total_amount hd, effPct_sum_of_all_active s hall,
      hinv.2]
    ring
  have hlen : (exactAmounts s total_amount).length
      = (s.categories.map (fun c => c.selected_tokens.length)).sum := by
    unfold exactAmounts
    rw [List.length_flatMap, activeCats_eq_self s hall]
    refine congrArg List.sum (List.map_congr_left fun c _ => ?_)
    simp [Function.comp]
  have hlenpos : (exactAmounts s total_amount).length ≠ 0 := by
    rw [hlen]
    match s.categories, hne, hall with
    | c0 :: rest, _, hall =>
      have h0 : c0.selected_tokens.length ≠ 0 := by
        simpa [List.length_eq_zero] using hall c0 (by simp)
      simp only [List.map_cons, List.sum_cons]
      omega
  have hLne : exactAmounts s total_amount ≠ [] := by
    intro hnil
    rw [hnil] at hlenpos
    exact hlenpos rfl
  have hbound := sum_lt_sum_map_quantizeDown_add 2 (exactAmounts s total_amount)
    hLne (exactAmounts_nonneg s total_amount htotal hp hd0)
  rw [hsum_exact, hlen] at hbound
  rw [amounts_eq_map_quantize s total_amount hA]
  have h102 : ((1 : ℚ) / 10 ^ 2) = 1 / 100 := by norm_num
  rw [h102] at hbound
  linarith

/-- Witness for the amended C1 at `strategyTwoCats`, `total = 10`. -/
theorem calculate_allocations_sum_bounds_witness :
    ((calculate_allocations strategyTwoCats 10).map Prod.snd).sum ≤ 10 ∧
    10 - ((calculate_allocations strategyTwoCats 10).map Prod.snd).sum
      < (((strategyTwoCats.categories.map
          (fun c => c.selected_tokens.length)).sum : ℕ) : ℚ) * (1 / 100) :=
  calculate_allocations_sum_bounds strategyTwoCats 10 (by simp [strategyTwoCats])
    (by simp [strategyTwoCats])
    (by norm_num [StrategyInvariant, CategoryInvariant, strategyTwoCats])
    (by norm_num)

/-- **C1 counterexample.** `shortfallStrategy` satisfies every hypothesis of
the original claim (all categories active, well formed, total `0.99 ≥ 0`),
yet both 50% shares of `0.99` truncate from `0.495` to `0.49`, so the
shortfall is exactly `0.01` and is *not* strictly less than
`0.01 × categories_count = 0.01 × 1`. -/
theorem calculate_allocations_shortfall_counterexample :
    (∀ c ∈ shortfallStrategy.categories, c.selected_tokens ≠ []) ∧
    StrategyInvariant shortfallStrategy ∧
    (0 : ℚ) ≤ 99 / 100 ∧
    calculate_allocations shortfallStrategy (99 / 100)
      = [("A", 49 / 100), ("B", 49 / 100)] ∧
    ¬((99 : ℚ) / 100
        - ((calculate_allocations shortfallStrategy (99 / 100)).map Prod.snd).sum
      < (shortfallStrategy.categories.length : ℚ) * (1 / 100)) := by
  have hcalc : calculate_allocations shortfallStrategy (99 / 100)
      = [("A", 49 / 100), ("B", 49 / 100)] := by
    norm_num [calculate_allocations, shortfallStrategy, quantizeDown,
      truncTowardZero]
  refine ⟨by simp [shortfallStrategy], ?_, by norm_num, hcalc, ?_⟩
  · norm_num [StrategyInvariant, CategoryInvariant, shortfallStrategy]
  · rw [hcalc]
    norm_num [shortfallStrategy]

/-- **C8.** In combined mode the per-strategy capital is
`total / n` truncated down to 2 decimals, so `n` times it never exceeds the
total; the allocation lists are computed independently per strategy from
that capital and concatenated; and for well-formed strategies the
concatenated amounts sum to at most the total. -/
theorem calculate_combined_allocations_spec (strategies : List InvestmentStrategy)
    (total_amount : ℚ) (hne : strategies ≠ []) (htotal : 0 ≤ total_amount)
    (hinv : ∀ s ∈ strategies, StrategyInvariant s) :
    ((strategies.length : ℚ)
        * quantizeDown 2 (total_amount / (strategies.length : ℚ)) ≤ total_amount) ∧
    calculate_combined_allocations strategies total_amount
      = strategies.flatMap (fun s =>
          calculate_allocations s
            (quantizeDown 2 (total_amount / (strategies.length : ℚ)))) ∧
    ((calculate_combined_allocations strategies total_amount).map Prod.snd).sum
      ≤ total_amount := by
  have hnpos : 0 < (strategies.length : ℚ) := by
    exact_mod_cast List.length_pos.mpr hne
  have hdivnn : 0 ≤ total_amount / (strategies.length : ℚ) :=
    div_nonneg htotal hnpos.le
  have hperle : quantizeDown 2 (total_amount / (strategies.length : ℚ))
      ≤ total_amount / (strategies.length : ℚ) := quantizeDown_le 2 hdivnn
  have hpernn : 0 ≤ quantizeDown 2 (total_amount / (strategies.length : ℚ)) :=
    quantizeDown_nonneg 2 hdivnn
  have h1 : (strategies.length : ℚ)
      * quantizeDown 2 (total_amount / (strategies.length : ℚ)) ≤ total_amount := by
    calc (strategies.length : ℚ)
        * quantizeDown 2 (total_amount / (strategies.length : ℚ))
        ≤ (strategies.length : ℚ) * (total_amount / (strategies.length : ℚ)) :=
          mul_le_mul_of_nonneg_left hperle hnpos.le
      _ = total_amount := by field_simp
  refine ⟨h1, rfl, ?_⟩
  unfold calculate_combined_allocations
  rw [List.map_flatMap, List.flatMap_def, List.sum_flatten, List.map_map]
  have hbound : ∀ s ∈ strategies,
      (List.sum ∘ fun s =>
        (calculate_allocations s
          (quantizeDown 2 (total_amount / (strategies.length : ℚ)))).map Prod.snd) s
      ≤ quantizeDown 2 (total_amount / (strategies.length : ℚ)) := by
    intro s hs
    simpa using sum_calculate_allocations_le s _ hpernn (hinv s hs)
  calc (strategies.map (List.sum ∘ fun s =>
        (calculate_allocations s
          (quantizeDown 2 (total_amount / (strategies.length : ℚ)))).map Prod.snd)).sum
      ≤ (strategies.map (fun _ =>
          quantizeDown 2 (total_amount / (strategies.length : ℚ)))).sum :=
        List.sum_le_sum hbound
    _ = (strategies.length : ℚ)
        * quantizeDown 2 (total_amount / (strategies.length : ℚ)) := by
        rw [List.map_const', List.sum_replicate, nsmul_eq_mul]
    _ ≤ total_amount := h1

/-- Witness for C8 with `total = 100` and two strategies: the per-strategy
capital is exactly 50 and the concatenated amounts sum to at most 100. -/
theorem calculate_combined_allocations_spec_witness :
    quantizeDown 2 ((100 : ℚ) / 2) = 50 ∧
    (([strategyTwoCats, strategyOneCat].length : ℚ)
        * quantizeDown 2 (100 / ([strategyTwoCats, strategyOneCat].length : ℚ))
      ≤ 100) ∧
    ((calculate_combined_allocations [strategyTwoCats, strategyOneCat] 100).map
        Prod.snd).sum ≤ 100 := by
  have h := calculate_combined_allocations_spec [strategyTwoCats, strategyOneCat]
    100 (by simp) (by norm_num)
    (by
      intro s hs
      simp only [List.mem_cons, List.not_mem_nil, or_false] at hs
      rcases hs with rfl | rfl
      · norm_num [StrategyInvariant, CategoryInvariant, strategyTwoCats]
      · norm_num [StrategyInvariant, CategoryInvariant, strategyOneCat])
  refine ⟨?_, h.1, h.2.2⟩
  norm_num [quantizeDown, truncTowardZero]

/-! ### Consolidation -/

lemma upsert_snd_sum (acc : List (String × ℚ)) (tok : String) (amt : ℚ) :
    ((upsert acc tok amt).map Prod.snd).sum = (acc.map Prod.snd).sum + amt := by
  induction acc with
  | nil => simp [upsert]
  | cons p rest ih =>
    obtain ⟨t0, a0⟩ := p
    by_cases h : t0 = tok
    · simp only [upsert, if_pos h, List.map_cons, List.sum_cons]
      ring
    · simp only [upsert, if_neg h, List.map_cons, List.sum_cons, ih]
      ring

lemma upsert_keyTotal (acc : List (String × ℚ)) (tok : String) (amt : ℚ)
    (t : String) :
    keyTotal t (upsert acc tok amt)
      = keyTotal t acc + (if tok = t then amt else 0) := by
  induction acc with
  | nil => simp [upsert, keyTotal]
  | cons p rest ih =>
    obtain ⟨t0, a0⟩ := p
    by_cases h : t0 = tok
    · subst h
      simp only [upsert, if_pos rfl, keyTotal, List.map_cons, List.sum_cons]
      by_cases ht : t0 = t
      · simp [ht]
        ring
      · simp [ht]
    · simp only [upsert, if_neg h, keyTotal, List.map_cons, List.sum_cons]
      have := ih
      unfold keyTotal at this
      rw [this]
      ring

lemma upsert_keys (acc : List (String × ℚ)) (tok : String) (amt : ℚ) :
    (upsert acc tok amt).map Prod.fst
      = if tok ∈ acc.map Prod.fst then acc.map Prod.fst
        else acc.map Prod.fst ++ [tok] := by
  induction acc with
  | nil => simp [upsert]
  | cons p rest ih =>
    obtain ⟨t0, a0⟩ := p
    by_cases h : t0 = tok
    · subst h
      simp [upsert]
    · simp only [upsert, if_neg h, List.map_cons, ih, List.mem_cons]
      have : ¬ tok = t0 := fun hh => h hh.symm
      by_cases hm : tok ∈ rest.map Prod.fst
      · simp [hm, this]
      · simp [hm, this]

lemma upsert_keys_nodup (acc : List (String × ℚ)) (tok : String) (amt : ℚ)
    (h : (acc.map Prod.fst).Nodup) :
    ((upsert acc tok amt).map Prod.fst).Nodup := by
  rw [upsert_keys]
  split
  · exact h
  · rename_i hnm
    rw [List.nodup_append]
    refine ⟨h, List.nodup_singleton tok, ?_⟩
    intro a ha hmem
    rw [List.mem_singleton] at hmem
    subst hmem
    exact hnm ha

lemma fold_upsert_snd_sum (l : List (String × ℚ)) :
    ∀ acc : List (String × ℚ),
      ((l.foldl (fun acc p => upsert acc p.1 p.2) acc).map Prod.snd).sum
        = (acc.map Prod.snd).sum + (l.map Prod.snd).sum := by
  induction l with
  | nil => simp
  | cons p rest ih =>
    intro acc
    simp only [List.foldl_cons, List.map_cons, List.sum_cons, ih, upsert_snd_sum]
    ring

lemma fold_upsert_keyTotal (l : List (String × ℚ)) :
    ∀ (acc : List (String × ℚ)) (t : String),
      keyTotal t (l.foldl (fun acc p => upsert acc p.1 p.2) acc)
        = keyTotal t acc + keyTotal t l := by
  induction l with
  | nil => simp [keyTotal]
  | cons p rest ih =>
    intro acc t
    simp only [List.foldl_cons, ih, upsert_keyTotal]
    unfold keyTotal
    simp only [List.map_cons, List.sum_cons]
    ring

lemma fold_upsert_keys_nodup (l : List (String × ℚ)) :
    ∀ acc : List (String × ℚ), (acc.map Prod.fst).Nodup →
      ((l.foldl (fun acc p => upsert acc p.1 p.2) acc).map Prod.fst).Nodup := by
  induction l with
  | nil => exact fun acc h => h
  | cons p rest ih =>
    intro acc h
    exact ih _ (upsert_keys_nodup acc p.1 p.2 h)

/-- **C6.** `consolidate_allocations` preserves the grand total and the
per-token totals, produces pairwise-distinct tokens, returns the list
sorted by descending amount, and on
`[(A,10),(B,5),(A,3)]` yields `[(A,13),(B,5)]`. -/
theorem consolidate_allocations_spec :
    (∀ l : List (String × ℚ),
      ((consolidate_allocations l).map Prod.snd).sum = (l.map Prod.snd).sum ∧
      (∀ t, keyTotal t (consolidate_allocations l) = keyTotal t l) ∧
      ((consolidate_allocations l).map Prod.fst).Nodup ∧
      List.Pairwise (fun a b => b.2 ≤ a.2) (consolidate_allocations l)) ∧
    consolidate_allocations [("A", 10), ("B", 5), ("A", 3)]
      = [("A", 13), ("B", 5)] := by
  constructor
  · intro l
    have hperm : (consolidate_allocations l).Perm
        (l.foldl (fun acc p => upsert acc p.1 p.2) []) :=
      List.mergeSort_perm _ _
    refine ⟨?_, ?_, ?_, ?_⟩
    · rw [(hperm.map Prod.snd).sum_eq, fold_upsert_snd_sum]
      simp
    · intro t
      have := (hperm.map (fun p => if p.1 = t then p.2 else 0)).sum_eq
      unfold keyTotal
      rw [this]
      have h2 := fold_upsert_keyTotal l [] t
      unfold keyTotal at h2
      simpa using h2
    · exact (hperm.map Prod.fst).nodup_iff.mpr
        (fold_upsert_keys_nodup l [] (by simp))
    · have hs := @List.sorted_mergeSort (String × ℚ)
        (fun a b => decide (b.2 ≤ a.2))
        (fun a b c hab hbc => by
          simp only [decide_eq_true_eq] at *
          exact le_trans hbc hab)
        (fun a b => by
          rcases le_total a.2 b.2 with h | h <;> simp [h])
        (l.foldl (fun acc p => upsert acc p.1 p.2) [])
      exact hs.imp fun h => by simpa using h
  · have hfold : [(("A" : String), (10 : ℚ)), ("B", 5), ("A", 3)].foldl
        (fun acc p => upsert acc p.1 p.2) [] = [("A", 13), ("B", 5)] := by
      simp [upsert]
      norm_num
    unfold consolidate_allocations
    rw [hfold]
    apply List.mergeSort_of_sorted
    refine List.pairwise_cons.mpr ⟨?_, List.pairwise_singleton _ _⟩
    intro b hb
    simp only [List.mem_singleton] at hb
    subst hb
    norm_num

/-! ### Execution coordinator -/

lemma lookup_dictInsert_self (l : List (String × OrderStatus)) (k : String)
    (v : OrderStatus) : (dictInsert l k v).lookup k = some v := by
  induction l with
  | nil => simp [dictInsert, List.lookup]
  | cons p rest ih =>
    obtain ⟨k0, v0⟩ := p
    by_cases h : k0 = k
    · subst h
      simp [dictInsert, List.lookup]
    · have h' : (k == k0) = false := by
        simp only [beq_eq_false_iff_ne, ne_eq]
        exact fun e => h e.symm
      simp [dictInsert, if_neg h, List.lookup, h', ih]

lemma lookup_dictInsert_ne (l : List (String × OrderStatus)) (k : String)
    (v : OrderStatus) (k' : String) (h : k' ≠ k) :
    (dictInsert l k v).lookup k' = l.lookup k' := by
  induction l with
  | nil =>
    have h' : (k' == k) = false := by simpa using h
    simp [dictInsert, List.lookup, h']
  | cons p rest ih =>
    obtain ⟨k0, v0⟩ := p
    by_cases h0 : k0 = k
    · subst h0
      have h' : (k' == k0) = false := by simpa using h
      simp [dictInsert, List.lookup, h']
    · simp [dictInsert, if_neg h0, List.lookup, ih]

lemma lookup_isSome_dictInsert (l : List (String × OrderStatus)) (k : String)
    (v : OrderStatus) (k' : String) (h : (l.lookup k').isSome) :
    ((dictInsert l k v).lookup k').isSome := by
  by_cases hk : k' = k
  · subst hk
    rw [lookup_dictInsert_self]
    rfl
  · rw [lookup_dictInsert_ne l k v k' hk]
    exact h

lemma execute_orders_go_calls (client : BinanceClient) (l : List (String × ℚ)) :
    ∀ report r', execute_orders_go client l report = some r' →
      r'.buy_calls = report.buy_calls
        ++ (l.filter (fun p => !(p.1 == "USDC"))).map Prod.fst := by
  induction l with
  | nil =>
    intro report r' h
    simp only [execute_orders_go, Option.some.injEq] at h
    subst h
    simp
  | cons p rest ih =>
    intro report r' h
    obtain ⟨token, amount⟩ := p
    by_cases htok : token = "USDC"
    · subst htok
      simp only [execute_orders_go, if_pos rfl] at h
      have := ih _ _ h
      simpa using this
    · simp only [execute_orders_go, if_neg htok] at h
      have hne : (token == "USDC") = false := by simpa using htok
      cases hb : execute_market_buy client token amount with
      | none =>
        rw [hb] at h
        cases h
      | some o =>
        cases o with
        | none =>
          rw [hb] at h
          have := ih _ _ h
          simp [this, hne, List.filter_cons]
        | some order =>
          rw [hb] at h
          have := ih _ _ h
          simp [this, hne, List.filter_cons]

lemma execute_orders_go_usdc (client : BinanceClient) (l : List (String × ℚ)) :
    ∀ report r', execute_orders_go client l report = some r' →
      ((∃ a, report.results.lookup "USDC" = some (OrderStatus.skipped a)) ∨
        (∃ amt, ("USDC", amt) ∈ l)) →
      ∃ a, r'.results.lookup "USDC" = some (OrderStatus.skipped a) := by
  induction l with
  | nil =>
    intro report r' h hc
    simp only [execute_orders_go, Option.some.injEq] at h
    subst h
    rcases hc with hc | ⟨amt, hmem⟩
    · exact hc
    · cases hmem
  | cons p rest ih =>
    intro report r' h hc
    obtain ⟨token, amount⟩ := p
    by_cases htok : token = "USDC"
    · subst htok
      simp only [execute_orders_go, if_pos rfl] at h
      refine ih _ _ h (Or.inl ⟨amount, ?_⟩)
      exact lookup_dictInsert_self _ _ _
    · simp only [execute_orders_go, if_neg htok] at h
      have hstep : ∀ (st : OrderStatus) (calls : List String),
          ((∃ a, (dictInsert report.results token st).lookup "USDC"
              = some (OrderStatus.skipped a)) ∨ (∃ amt, ("USDC", amt) ∈ rest)) := by
        intro st calls
        rcases hc with ⟨a, ha⟩ | ⟨amt, hmem⟩
        · left
          refine ⟨a, ?_⟩
          rw [lookup_dictInsert_ne _ _ _ _ (fun e => htok e.symm)]
          exact ha
        · rcases List.mem_cons.mp hmem with heq | hmem
          · exact absurd (congrArg Prod.fst heq).symm htok
          · exact Or.inr ⟨amt, hmem⟩
      cases hb : execute_market_buy client token amount with
      | none =>
        rw [hb] at h
        cases h
      | some o =>
        cases o with
        | none =>
          rw [hb] at h
          exact ih _ _ h (hstep (.failed amount) (report.buy_calls ++ [token]))
        | some order =>
          rw [hb] at h
          exact ih _ _ h
            (hstep (.success order.orderId order.executedQty
              order.cummulativeQuoteQty) (report.buy_calls ++ [token]))

/-- **C9.** `execute_orders` records a skipped outcome for the reference
asset `"USDC"`, never invokes `execute_market_buy` for it, and invokes it
exactly for the non-`"USDC"` entries in list order. -/
theorem execute_orders_base_asset_spec (client : BinanceClient)
    (allocations : List (String × ℚ)) (report : ExecReport)
    (h : execute_orders client allocations = some report) :
    (∀ amt, ("USDC", amt) ∈ allocations →
      ∃ a, report.results.lookup "USDC" = some (OrderStatus.skipped a)) ∧
    report.buy_calls
      = (allocations.filter (fun p => !(p.1 == "USDC"))).map Prod.fst ∧
    "USDC" ∉ report.buy_calls := by
  unfold execute_orders at h
  have hcalls := execute_orders_go_calls client allocations _ _ h
  simp only [List.nil_append] at hcalls
  refine ⟨?_, hcalls, ?_⟩
  · intro amt hmem
    exact execute_orders_go_usdc client allocations _ _ h (Or.inr ⟨amt, hmem⟩)
  · rw [hcalls]
    intro hmem
    obtain ⟨p, hp, hfst⟩ := List.mem_map.mp hmem
    have hcond := (List.mem_filter.mp hp).2
    rw [hfst] at hcond
    simp at hcond

/-- Witness for C9: a run holding USDC and buying BTC. -/
theorem execute_orders_base_asset_spec_witness :
    ∃ report, execute_orders demoClient [("USDC", 5), ("BTC", 20)] = some report ∧
      (∃ a, report.results.lookup "USDC" = some (OrderStatus.skipped a)) ∧
      "USDC" ∉ report.buy_calls := by
  have hrun : execute_orders demoClient [("USDC", 5), ("BTC", 20)]
      = some ⟨[("USDC", .skipped 5), ("BTC", .success 1 10 20)], ["BTC"]⟩ := by
    norm_num [execute_orders, execute_orders_go, execute_market_buy,
      validate_order, get_min_notional, find_min_notional, get_lot_size_info,
      find_lot_size, adjust_quantity_to_lot_size, Dec.val, demoClient,
      dictInsert, quantizeHalfEven, roundHalfEven,
      show ("BTC" : String) ≠ "USDC" from by decide,
      show ("USDC" : String) ≠ "BTC" from by decide]
  obtain ⟨h1, _, h3⟩ :=
    execute_orders_base_asset_spec demoClient [("USDC", 5), ("BTC", 20)] _ hrun
  exact ⟨_, hrun, h1 5 (by simp), h3⟩

lemma validate_order_isSome (client : BinanceClient) (symbol : String)
    (usdc_amount : ℚ) (h : ∃ p, client.price symbol = some p ∧ p ≠ 0) :
    validate_order client symbol usdc_amount ≠ none := by
  obtain ⟨p, hp, hz⟩ := h
  unfold validate_order
  by_cases hlt : usdc_amount < get_min_notional client symbol
  · simp [hlt]
  · simp only [if_neg hlt, hp, if_neg hz]
    split
    · simp
    · split <;> simp

lemma execute_market_buy_isSome (client : BinanceClient) (token : String)
    (usdc_amount : ℚ)
    (h : ∃ p, client.price (token ++ "USDC") = some p ∧ p ≠ 0) :
    execute_market_buy client token usdc_amount ≠ none := by
  cases hv : validate_order client (token ++ "USDC") usdc_amount with
  | none => exact absurd hv (validate_order_isSome client _ usdc_amount h)
  | some v =>
    obtain ⟨valid, msg, q⟩ := v
    simp only [execute_market_buy, hv]
    cases valid
    · simp
    · cases client.order_market_buy (token ++ "USDC")
        (quantizeHalfEven 2 usdc_amount) <;> simp

lemma execute_orders_go_total (client : BinanceClient)
    (hp : ∀ s, ∃ p, client.price s = some p ∧ p ≠ 0) (l : List (String × ℚ)) :
    ∀ report, ∃ r', execute_orders_go client l report = some r' ∧
      (∀ k, (report.results.lookup k).isSome → (r'.results.lookup k).isSome) ∧
      (∀ q ∈ l, (r'.results.lookup q.1).isSome) := by
  induction l with
  | nil =>
    intro report
    exact ⟨report, rfl, fun _ h => h, by simp⟩
  | cons q rest ih =>
    intro report
    obtain ⟨token, amount⟩ := q
    by_cases htok : token = "USDC"
    · subst htok
      obtain ⟨r', hr', hmono, hall⟩ :=
        ih ⟨dictInsert report.results "USDC" (.skipped amount), report.buy_calls⟩
      refine ⟨r', ?_, ?_, ?_⟩
      · simp only [execute_orders_go, if_pos rfl]
        exact hr'
      · intro k hk
        exact hmono k (lookup_isSome_dictInsert _ _ _ _ hk)
      · intro q hq
        rcases List.mem_cons.mp hq with rfl | hq
        · refine hmono "USDC" ?_
          rw [lookup_dictInsert_self]
          rfl
        · exact hall q hq
    · cases hb : execute_market_buy client token amount with
      | none => exact absurd hb (execute_market_buy_isSome client token amount (hp _))
      | some o =>
        have hnext : ∀ st : OrderStatus,
            ∃ r', execute_orders_go client rest
                ⟨dictInsert report.results token st, report.buy_calls ++ [token]⟩
              = some r' ∧
            (∀ k, (report.results.lookup k).isSome →
              (r'.results.lookup k).isSome) ∧
            (∀ q ∈ ((token, amount) :: rest), (r'.results.lookup q.1).isSome) := by
          intro st
          obtain ⟨r', hr', hmono, hall⟩ :=
            ih ⟨dictInsert report.results token st, report.buy_calls ++ [token]⟩
          refine ⟨r', hr', ?_, ?_⟩
          · intro k hk
            exact hmono k (lookup_isSome_dictInsert _ _ _ _ hk)
          · intro q hq
            rcases List.mem_cons.mp hq with rfl | hq
            · refine hmono token ?_
              rw [lookup_dictInsert_self]
              rfl
            · exact hall q hq
        cases o with
        | none =>
          obtain ⟨r', hr', hmono, hall⟩ := hnext (.failed amount)
          exact ⟨r', by simp only [execute_orders_go, if_neg htok, hb]; exact hr',
            hmono, hall⟩
        | some order =>
          obtain ⟨r', hr', hmono, hall⟩ := hnext
            (.success order.orderId order.executedQty order.cummulativeQuoteQty)
          exact ⟨r', by simp only [execute_orders_go, if_neg htok, hb]; exact hr',
            hmono, hall⟩

/-- **C7 (amended).** Failures are isolated per order only for the order
*placement* step: whenever the price lookups succeed (with nonzero prices),
`execute_orders` completes and records an outcome for every allocation
whatever `order_market_buy` does, and an exception inside the placement
call is caught by `execute_market_buy`, which returns `None` (recorded
upstream as a failed outcome).  A price-lookup error, by contrast, is
re-raised and aborts the whole run (see the counterexample). -/
theorem execute_orders_error_isolation :
    (∀ (client : BinanceClient) (allocations : List (String × ℚ)),
      (∀ s, ∃ p, client.price s = some p ∧ p ≠ 0) →
      ∃ report, execute_orders client allocations = some report ∧
        ∀ q ∈ allocations, (report.results.lookup q.1).isSome) ∧
    (∀ (client : BinanceClient) (token : String) (usdc_amount : ℚ)
        (v : Bool) (m : ValidationMessage) (q : ℚ),
      validate_order client (token ++ "USDC") usdc_amount = some (v, m, q) →
      client.order_market_buy (token ++ "USDC") (quantizeHalfEven 2 usdc_amount)
        = none →
      execute_market_buy client token usdc_amount = some none) := by
  constructor
  · intro client allocations hp
    obtain ⟨r', hr', _, hall⟩ := execute_orders_go_total client hp allocations ⟨[], []⟩
    exact ⟨r', hr', hall⟩
  · intro client token usdc_amount v m q hv hplace
    simp only [execute_market_buy, hv]
    cases v
    · simp
    · simp [hplace]

/-- Witness for the amended C7: with prices available, one failing placement
does not prevent the other allocation from being processed and recorded. -/
theorem execute_orders_error_isolation_witness :
    ∃ report, execute_orders flakyClient [("AAA", 50), ("BBB", 50)] = some report ∧
      (report.results.lookup "AAA").isSome ∧ (report.results.lookup "BBB").isSome := by
  obtain ⟨report, hrep, hall⟩ := execute_orders_error_isolation.1 flakyClient
    [("AAA", 50), ("BBB", 50)] (fun s => ⟨2, rfl, by norm_num⟩)
  exact ⟨report, hrep, hall ("AAA", 50) (by simp), hall ("BBB", 50) (by simp)⟩

/-- **C7 counterexample.** A price-lookup failure is *not* caught:
`get_current_price` re-raises and `validate_order` runs outside the `try`
block of `execute_market_buy`, so `execute_orders` aborts with the
exception and no outcome is recorded for the first *or* any subsequent
allocation — refuting the claim that any exchange error during price
lookup is recorded as a failed outcome and the run continues. -/
theorem execute_orders_price_error_counterexample :
    execute_orders ⟨fun _ => none, fun _ => none, fun _ _ => some ⟨1, 1, 1⟩⟩
      [("AAA", 50), ("BBB", 50)] = none := by
  norm_num [execute_orders, execute_orders_go, execute_market_buy,
    validate_order, get_min_notional,
    show ("AAA" : String) ≠ "USDC" from by decide]
